import Mathlib

/-!
Verification of the disk-usage analyzer's core: the tree builder
(`build_tree` in `src/core/mod.rs`, duplicated inline in `src/main.rs`)
and the navigation state machine (the `App` type in `src/ui/app.rs`,
driven through the `Action` mapping of `src/ui/event.rs`, and the inline
event loop of `src/main.rs`).

Paths are modelled as lists of components (a canonicalized absolute path;
`[]` stands for the filesystem root `/`).  Machine integers (`u64`,
`usize`, `isize`) are modelled as `Nat`/`Int`; no arithmetic here can
overflow on realistic inputs, and the code performs no wrapping
arithmetic.  The filesystem walk itself is impure; its output — the flat
entry list — is the input of the model, as in the source, where
`build_tree` first collects `Vec<(PathBuf, u64, bool)>`.
-/

namespace Dua

/-- Lexicographic strict order on character lists: the byte order Rust's
`Ord` on `OsStr` gives for the ASCII range. -/
def charsLt : List Char → List Char → Bool
  | _, [] => false
  | [], _ :: _ => true
  | a :: as, b :: bs => decide (a < b) || (a == b && charsLt as bs)

/-- String comparison `s ≤ t` as `cmp(s, t) != Greater`. -/
def strLeB (s t : String) : Bool := !(charsLt t.data s.data)

/-- Rust `Option<&OsStr>` ordering (`None` least), `≤` as a Bool. -/
def optLeB : Option String → Option String → Bool
  | none, _ => true
  | some _, none => false
  | some s, some t => strLeB s t

/-- Predicate: `p` is a (non-strict) component-prefix of `q`, an ancestor-or-self
of `q` in path terms. -/
def preB : List String → List String → Bool
  | [], _ => true
  | _ :: _, [] => false
  | a :: as, b :: bs => a == b && preB as bs

/-- Rust `Path::parent`: `None` for the root `/` (empty component list),
otherwise the path with the last component dropped. -/
def parentP : List String → Option (List String)
  | [] => none
  | x :: xs => some ((x :: xs).dropLast)

/-- The chain of strict ancestors produced by the `while let Some(p) = cur`
loop in `build_tree`: immediate parent first, ending at `/`.  The counter
is the exact number of iterations (`p.length`), making the recursion
structural. -/
def chainAux : Nat → List String → List (List String)
  | 0, _ => []
  | k + 1, q => q.dropLast :: chainAux k q.dropLast

def parentChain (p : List String) : List (List String) := chainAux p.length p

/-- One flat record of the scan: `(PathBuf, u64, bool)` in the source. -/
structure Entry where
  path : List String
  size : Nat
  is_dir : Bool
deriving DecidableEq, Repr

/-- The `HashMap<PathBuf, u64>` of `build_tree`, observed only through
`get(path).unwrap_or(&0)`: a total function with default 0.  `or_default`
creates the default, `and_modify` updates in place. -/
def SMap := List String → Nat

def upd (m : SMap) (k : List String) (v : Nat) : SMap :=
  fun q => if q = k then v else m q

/-- The body of the aggregation loop for one entry `(path, size, _)`:
add `size` to the entry's own total (guarded by `size > 0` in the source,
which is observationally the same), then to every strict ancestor's total. -/
def addEntry (m : SMap) (path : List String) (size : Nat) : SMap :=
  (parentChain path).foldl (fun acc p => upd acc p (acc p + size))
    (if 0 < size then upd m path (m path + size) else upd m path (m path))

def buildSizes (entries : List Entry) : SMap :=
  entries.foldl (fun m e => addEntry m e.path e.size) (fun _ => 0)

/-- Component-wise lexicographic order on paths, `PathBuf`'s `Ord`. -/
def pathLe : List String → List String → Bool
  | [], _ => true
  | _ :: _, [] => false
  | a :: as, b :: bs => if a = b then pathLe as bs else strLeB a b

/-- Stable insertion of `x` into `l`: `x` goes before the first `y` with
`le x y`.  Used to model Rust's stable `sort_by`: for a total preorder
comparator the stable-sorted output is unique, so any stable sort gives the
same list as `Vec::sort_by`. -/
def insertOrd (le : α → α → Bool) (x : α) : List α → List α
  | [] => [x]
  | y :: ys => if le x y then x :: y :: ys else y :: insertOrd le x ys

/-- Stable sort (insertion sort). -/
def insSort (le : α → α → Bool) : List α → List α
  | [] => []
  | x :: xs => insertOrd le x (insSort le xs)

/-- The `DirEntryInfo` struct: one tree node. -/
inductive Node where
  | mk (path : List String) (size : Nat) (is_dir : Bool) (children : List Node)

def Node.path : Node → List String
  | .mk p _ _ _ => p

def Node.size : Node → Nat
  | .mk _ s _ _ => s

def Node.is_dir : Node → Bool
  | .mk _ _ d _ => d

def Node.children : Node → List Node
  | .mk _ _ _ c => c

/-- Inner `build_node`: children are the entries whose parent equals this node's
path, in entry-list order; the node's size is the aggregated total.  The
source recursion terminates because children's paths are one component
longer; `fuel` bounds that depth and `build_tree` passes a bound larger
than every entry path, so the cut-off branch is never reached. -/
def build_node (entries : List Entry) (sizes : SMap) :
    Nat → List String → Bool → Node
  | 0, path, is_dir => Node.mk path (sizes path) is_dir []
  | fuel + 1, path, is_dir =>
    let childEntries := entries.filter (fun e => parentP e.path == some path)
    Node.mk path (sizes path) is_dir
      (childEntries.map (fun e => build_node entries sizes fuel e.path e.is_dir))

def maxPathLen (entries : List Entry) : Nat :=
  (entries.map (fun e => e.path.length)).foldr max 0

/-- Body of `build_tree` after the walk: sort the flat records by path, aggregate
sizes up the ancestor chains, then build the node graph from the root. -/
def build_tree (root : List String) (entries : List Entry) : Node :=
  let sorted := insSort (fun e₁ e₂ => pathLe e₁.path e₂.path) entries
  let sizes := buildSizes sorted
  build_node sorted sizes (maxPathLen sorted + 1) root true

/-- Total size of the entries at or below `p`: what the aggregation loop
ends up storing for `p`. -/
def sumPre (entries : List Entry) (p : List String) : Nat :=
  (entries.map (fun e => if preB p e.path then e.size else 0)).sum

/-- What the filesystem walk guarantees about its output (the flat entry
list for scan root `r`): distinct paths; directory records carry size 0;
every strict ancestor (within the scanned subtree) of a recorded path is
recorded as a directory; a record at the root itself is a directory. -/
def WellFormed (r : List String) (entries : List Entry) : Prop :=
  (entries.map Entry.path).Nodup
  ∧ (∀ e ∈ entries, e.is_dir = true → e.size = 0)
  ∧ (∀ e ∈ entries, ∀ a ∈ parentChain e.path, preB r a = true →
      ∃ d ∈ entries, d.path = a ∧ d.is_dir = true)
  ∧ (∀ e ∈ entries, e.path = r → e.is_dir = true)

instance (r : List String) (E : List Entry) : Decidable (WellFormed r E) := by
  unfold WellFormed; infer_instance

/-- The §3 invariant over a node and the entry list: a directory node's
size is the sum of its children's sizes; a file node's size is the size
recorded for its path in the entry list (every record at that path
agrees); and the same holds of every descendant. -/
inductive TreeInv (E : List Entry) : Node → Prop where
  | mk {p : List String} {s : Nat} {d : Bool} {cs : List Node} :
      (d = true → s = (cs.map Node.size).sum) →
      (d = false → ∀ e ∈ E, e.path = p → e.size = s) →
      (∀ c ∈ cs, TreeInv E c) →
      TreeInv E (.mk p s d cs)

/-- The `SortBy` enum from `ui/app.rs` (identical to the copy in `main.rs`);
`Default` is `Size`. -/
inductive SortBy where
  | Name
  | Size
deriving DecidableEq, Repr

/-- Rust `Path::file_name()`: the last component, `None` for the root. -/
def fileName (p : List String) : Option String := p.getLast?

/-- The comparator the two `sort_by` call sites pass to the stable sort,
as a `Bool`-valued `≤`: `Name` is `a.path.file_name().cmp(&b.path.file_name())`
ascending, `Size` is `b.size.cmp(&a.size)`, i.e. descending by size. -/
def sortLe (sb : SortBy) (a b : Node) : Bool :=
  match sb with
  | .Name => optLeB (fileName a.path) (fileName b.path)
  | .Size => decide (b.size ≤ a.size)

/-- The `sort_children` body applied to a child list: Rust's stable `Vec::sort_by`. -/
def sortChildren (sb : SortBy) (l : List Node) : List Node :=
  insSort (sortLe sb) l

/-- The `App` state of `ui/app.rs`.  `current_node` and the stack elements
are separate clones of tree nodes, exactly as in the source (`push` stores
`new_node.clone()`); `stack` is in `Vec` order, the last element on top. -/
structure App where
  current_node : Node
  stack : List Node
  sort_by : SortBy
  selected : Nat

/-- Constructor `App::new`. -/
def App.new (root : Node) : App :=
  { current_node := root, stack := [root], sort_by := .Size, selected := 0 }

/-- Method `App::navigate_into`: enter the selected child when it is a directory
with children; otherwise leave the state unchanged. -/
def App.navigate_into (a : App) : App :=
  match a.current_node.children.get? a.selected with
  | some c =>
    if c.is_dir && !c.children.isEmpty then
      { current_node := c, stack := a.stack ++ [c],
        sort_by := a.sort_by, selected := 0 }
    else a
  | none => a

/-- Method `App::navigate_out`: pop when the stack has more than one element; the
selection-restoration search looks for a child of the new current node
whose path equals the new current node's own path (the already-updated
`self.current_node.path`), clamping when found. -/
def App.navigate_out (a : App) : App :=
  if 1 < a.stack.length then
    let st := a.stack.dropLast
    match st.getLast? with
    | some prev =>
      let sel :=
        match prev.children.findIdx? (fun c => c.path == prev.path) with
        | some pos => min pos (prev.children.length - 1)
        | none => a.selected
      { current_node := prev, stack := st, sort_by := a.sort_by, selected := sel }
    | none => { a with stack := st }
  else a

/-- Method `App::move_selection`: wraps with `rem_euclid` when there are children. -/
def App.move_selection (a : App) (delta : Int) : App :=
  if a.current_node.children.isEmpty then a
  else
    { a with selected :=
        (((a.selected : Int) + delta) % (a.current_node.children.length : Int)).toNat }

/-- Method `App::sort_children`: stable in-place sort of the current node's
children only. -/
def App.sort_children (a : App) : App :=
  let n := a.current_node
  { a with current_node := Node.mk n.path n.size n.is_dir (sortChildren a.sort_by n.children) }

def flipSort : SortBy → SortBy
  | .Name => .Size
  | .Size => .Name

/-- Method `App::toggle_sort`: flip the order, then re-sort the current children. -/
def App.toggle_sort (a : App) : App :=
  App.sort_children { a with sort_by := flipSort a.sort_by }

/-- The five semantic actions `handle_key_event` in `ui/event.rs` produces
besides `Quit` (down/up are `MoveSelection(1)` / `MoveSelection(-1)`). -/
inductive Act where
  | ToggleSort
  | MoveDown
  | MoveUp
  | NavigateIn
  | NavigateOut
deriving DecidableEq, Repr

/-- The `App` interpretation of an action, via the `event.rs` mapping. -/
def appStep (a : App) : Act → App
  | .ToggleSort => a.toggle_sort
  | .MoveDown => a.move_selection 1
  | .MoveUp => a.move_selection (-1)
  | .NavigateIn => a.navigate_into
  | .NavigateOut => a.navigate_out

/-- The rows `draw_file_list` in `ui/ui.rs` renders: the stored child list
of `app.current_node`, in stored order, as `(file_name, size, is_dir)`. -/
def uiRows (a : App) : List (Option String × Nat × Bool) :=
  a.current_node.children.map (fun c => (fileName c.path, c.size, c.is_dir))

/-- The state of the inline event loop in `main.rs`: the stack of
`(DirEntryInfo, usize)` pairs (the `usize` is stored but never read), the
`TableState` selection (`None` in `TableState::default()`), and the sort
order. -/
structure MainState where
  stack : List (Node × Nat)
  sel : Option Nat
  sort_by : SortBy

/-- Loop-local state before the first iteration of `run_tui`. -/
def mainInit (root : Node) : MainState :=
  { stack := [(root, 0)], sel := none, sort_by := .Size }

/-- One key dispatch of the `main.rs` loop.  `none` models a panic: the
`stack.last().unwrap()` on an empty stack, or the `children[sel]` indexing
in the `Right`/`Enter` arm going out of bounds. -/
def mainStep (s : MainState) : Act → Option MainState
  | .ToggleSort => some { s with sort_by := flipSort s.sort_by }
  | .MoveDown =>
    match s.stack.getLast? with
    | none => none
    | some (n, _) =>
      let len := n.children.length
      let newSel : Nat :=
        match s.sel with
        | some i => if i + 1 < len then i + 1 else 0
        | none => 0
      if 0 < len then some { s with sel := some newSel } else some s
  | .MoveUp =>
    match s.stack.getLast? with
    | none => none
    | some (n, _) =>
      let len := n.children.length
      let newSel : Nat :=
        match s.sel with
        | some i => if 0 < i then i - 1 else len - 1
        | none => len - 1
      if 0 < len then some { s with sel := some newSel } else some s
  | .NavigateIn =>
    match s.stack.getLast? with
    | none => none
    | some (n, _) =>
      match s.sel with
      | none => some s
      | some i =>
        match n.children.get? i with
        | none => none
        | some c =>
          if c.is_dir && !c.children.isEmpty then
            some { s with stack := s.stack ++ [(c, 0)], sel := none }
          else some s
  | .NavigateOut =>
    if 1 < s.stack.length then
      some { s with stack := s.stack.dropLast, sel := none }
    else some s

/-- The node the `main.rs` loop is currently viewing. -/
def mainTop (s : MainState) : Option Node :=
  (s.stack.getLast?).map Prod.fst

/-- The rows `draw_ui` in `main.rs` renders: a clone of the current
children, re-sorted by the active order on every redraw. -/
def mainRows (s : MainState) : List (Option String × Nat × Bool) :=
  match mainTop s with
  | none => []
  | some n => (sortChildren s.sort_by n.children).map
      (fun c => (fileName c.path, c.size, c.is_dir))

/-- States the `main.rs` loop can actually reach from its initial state. -/
inductive ReachableMain (root : Node) : MainState → Prop where
  | init : ReachableMain root (mainInit root)
  | step {s s' : MainState} {act : Act} :
      ReachableMain root s → mainStep s act = some s' → ReachableMain root s'

/-- The §3 invariant over a whole navigation state: the current node and
every stack entry satisfy the tree invariant. -/
def AppInv (E : List Entry) (a : App) : Prop :=
  TreeInv E a.current_node ∧ ∀ n ∈ a.stack, TreeInv E n

/-! ### Path-prefix toolkit -/

theorem preB_refl (p : List String) : preB p p = true := by
  induction p with
  | nil => rfl
  | cons a as ih => simp [preB, ih]

theorem preB_trans {p q r : List String} (h1 : preB p q = true)
    (h2 : preB q r = true) : preB p r = true := by
  induction p generalizing q r with
  | nil => rfl
  | cons a as ih =>
    cases q with
    | nil => simp [preB] at h1
    | cons b bs =>
      cases r with
      | nil => simp [preB] at h2
      | cons c cs =>
        simp only [preB, Bool.and_eq_true, beq_iff_eq] at h1 h2 ⊢
        exact ⟨h1.1.trans h2.1, ih h1.2 h2.2⟩

theorem preB_length {p q : List String} (h : preB p q = true) :
    p.length ≤ q.length := by
  induction p generalizing q with
  | nil => simp
  | cons a as ih =>
    cases q with
    | nil => simp [preB] at h
    | cons b bs =>
      simp only [preB, Bool.and_eq_true, beq_iff_eq] at h
      simpa using ih h.2

theorem preB_take (k : Nat) (q : List String) : preB (q.take k) q = true := by
  induction q generalizing k with
  | nil => cases k <;> rfl
  | cons b bs ih =>
    cases k with
    | zero => rfl
    | succ k => simp [preB, List.take, ih]

theorem take_of_preB {p q : List String} (h : preB p q = true) :
    q.take p.length = p := by
  induction p generalizing q with
  | nil => simp
  | cons a as ih =>
    cases q with
    | nil => simp [preB] at h
    | cons b bs =>
      simp only [preB, Bool.and_eq_true, beq_iff_eq] at h
      simp only [List.length_cons, List.take_succ_cons]
      rw [ih h.2, h.1]

theorem preB_of_take_eq {p q : List String} (h : q.take p.length = p) :
    preB p q = true := by
  have := preB_take p.length q
  rwa [h] at this

theorem eq_of_preB_le {p q : List String} (h : preB p q = true)
    (hl : q.length ≤ p.length) : p = q := by
  have h1 := preB_length h
  have h2 : p.length = q.length := le_antisymm h1 hl
  have h3 := take_of_preB h
  rw [h2, List.take_length] at h3
  exact h3.symm

theorem preB_length_lt {p q : List String} (h : preB p q = true) (hne : p ≠ q) :
    p.length < q.length := by
  rcases lt_or_ge p.length q.length with h' | h'
  · exact h'
  · exact absurd (eq_of_preB_le h h') hne

theorem parentP_eq_some {q p : List String} :
    parentP q = some p ↔ q ≠ [] ∧ q.dropLast = p := by
  cases q <;> simp [parentP]

theorem length_of_parentP {q p : List String} (h : parentP q = some p) :
    q.length = p.length + 1 := by
  rcases parentP_eq_some.1 h with ⟨hne, hdl⟩
  have h2 := List.length_dropLast q
  rw [hdl] at h2
  cases q with
  | nil => exact absurd rfl hne
  | cons a as => simp only [List.length_cons] at h2 ⊢; omega

theorem preB_dropLast (q : List String) : preB q.dropLast q = true := by
  rw [List.dropLast_eq_take]
  exact preB_take _ q

theorem preB_of_parentP {q p : List String} (h : parentP q = some p) :
    preB p q = true := by
  rcases parentP_eq_some.1 h with ⟨_, hdl⟩
  rw [← hdl]; exact preB_dropLast q

theorem dropLast_ne_self {q : List String} (h : q ≠ []) : q.dropLast ≠ q := by
  intro he
  have h2 := congrArg List.length he
  rw [List.length_dropLast] at h2
  cases q with
  | nil => exact h rfl
  | cons x xs => simp only [List.length_cons] at h2; omega

theorem parentChain_ne {q : List String} (hne : q ≠ []) :
    parentChain q = q.dropLast :: parentChain q.dropLast := by
  unfold parentChain
  cases q with
  | nil => exact absurd rfl hne
  | cons a as =>
    have hl : (a :: as).length = (a :: as).dropLast.length + 1 := by
      simp [List.length_dropLast]
    rw [hl]
    rfl

theorem preB_dropLast_of_lt {a q : List String} (h : preB a q = true)
    (hlt : a.length < q.length) : preB a q.dropLast = true := by
  apply preB_of_take_eq
  rw [List.dropLast_eq_take, List.take_take]
  have hm : min a.length (q.length - 1) = a.length := by omega
  rw [hm, take_of_preB h]

theorem mem_parentChain_aux :
    ∀ (n : Nat) (q : List String), q.length ≤ n →
      ∀ a, (a ∈ parentChain q ↔ (preB a q = true ∧ a ≠ q)) := by
  intro n
  induction n with
  | zero =>
    intro q hq a
    have hq0 : q = [] := List.length_eq_zero.1 (Nat.le_zero.1 hq)
    subst hq0
    simp only [parentChain, chainAux, List.not_mem_nil, false_iff]
    rintro ⟨h1, h2⟩
    cases a with
    | nil => exact h2 rfl
    | cons x xs => simp [preB] at h1
  | succ n ih =>
    intro q hq a
    by_cases hne : q = []
    · subst hne
      simp only [parentChain, chainAux, List.not_mem_nil, false_iff]
      rintro ⟨h1, h2⟩
      cases a with
      | nil => exact h2 rfl
      | cons x xs => simp [preB] at h1
    · rw [parentChain_ne hne, List.mem_cons,
        ih q.dropLast (by rw [List.length_dropLast]; omega) a]
      constructor
      · rintro (rfl | ⟨h1, h2⟩)
        · exact ⟨preB_dropLast q, dropLast_ne_self hne⟩
        · refine ⟨preB_trans h1 (preB_dropLast q), ?_⟩
          intro he
          have hl := preB_length h1
          rw [List.length_dropLast] at hl
          have hql : 0 < q.length := by
            cases q with
            | nil => exact absurd rfl hne
            | cons x xs => simp
          have := congrArg List.length he
          omega
      · rintro ⟨h1, h2⟩
        by_cases had : a = q.dropLast
        · exact Or.inl had
        · refine Or.inr ⟨?_, had⟩
          exact preB_dropLast_of_lt h1 (preB_length_lt h1 h2)

theorem mem_parentChain {a q : List String} :
    a ∈ parentChain q ↔ (preB a q = true ∧ a ≠ q) :=
  mem_parentChain_aux q.length q le_rfl a

theorem parentChain_nodup_aux :
    ∀ (n : Nat) (q : List String), q.length ≤ n → (parentChain q).Nodup := by
  intro n
  induction n with
  | zero =>
    intro q hq
    have hq0 : q = [] := List.length_eq_zero.1 (Nat.le_zero.1 hq)
    subst hq0
    simp [parentChain, chainAux]
  | succ n ih =>
    intro q hq
    by_cases hne : q = []
    · subst hne; simp [parentChain, chainAux]
    · rw [parentChain_ne hne]
      refine List.nodup_cons.2 ⟨?_, ?_⟩
      · intro hmem
        exact (mem_parentChain.1 hmem).2 rfl
      · refine ih q.dropLast ?_
        rw [List.length_dropLast]; omega

theorem parentChain_nodup (q : List String) : (parentChain q).Nodup :=
  parentChain_nodup_aux q.length q le_rfl

/-! ### Size-aggregation lemmas: the map built by the loop stores, at every
path, the total size of the entries at or below that path. -/

theorem upd_eval (m : SMap) (k : List String) (v : Nat) (q : List String) :
    upd m k v q = if q = k then v else m q := rfl

theorem foldUpd_eval (s : Nat) :
    ∀ (L : List (List String)), L.Nodup → ∀ (m : SMap) (p : List String),
      (L.foldl (fun acc a => upd acc a (acc a + s)) m) p
        = m p + (if p ∈ L then s else 0) := by
  intro L
  induction L with
  | nil => intro _ m p; simp
  | cons a L ih =>
    intro hN m p
    have hN2 := List.nodup_cons.1 hN
    rw [List.foldl_cons, ih hN2.2]
    by_cases hpa : p = a
    · subst hpa
      rw [upd_eval]
      have hnp : p ∉ L := hN2.1
      simp [hnp]
    · rw [upd_eval]
      simp only [if_neg hpa]
      by_cases hpL : p ∈ L
      · simp [hpL, List.mem_cons, hpa]
      · simp [hpL, List.mem_cons, hpa]

theorem addEntry_eval (m : SMap) (qp : List String) (s : Nat) (p : List String) :
    addEntry m qp s p = m p + (if preB p qp = true then s else 0) := by
  unfold addEntry
  rw [foldUpd_eval s (parentChain qp) (parentChain_nodup qp)]
  have hm1 : (if 0 < s then upd m qp (m qp + s) else upd m qp (m qp)) p
      = m p + (if p = qp then s else 0) := by
    by_cases hs : 0 < s <;> by_cases hpq : p = qp <;>
      (simp [upd_eval, hs, hpq]; try omega)
  rw [hm1]
  by_cases hpq : p = qp
  · subst hpq
    have hnm : p ∉ parentChain p := fun hm => (mem_parentChain.1 hm).2 rfl
    simp [hnm, preB_refl]
  · by_cases hpre : preB p qp = true
    · have hmem : p ∈ parentChain qp := mem_parentChain.2 ⟨hpre, hpq⟩
      simp [hmem, hpre, hpq]
    · have hnm : p ∉ parentChain qp := fun hm => hpre (mem_parentChain.1 hm).1
      simp [hnm, hpre, hpq]

theorem sumPre_cons (e : Entry) (E : List Entry) (p : List String) :
    sumPre (e :: E) p
      = (if preB p e.path = true then e.size else 0) + sumPre E p := by
  simp [sumPre]

theorem buildSizes_aux (E : List Entry) :
    ∀ (m : SMap) (p : List String),
      (E.foldl (fun m e => addEntry m e.path e.size) m) p = m p + sumPre E p := by
  induction E with
  | nil => intro m p; simp [sumPre]
  | cons e E ih =>
    intro m p
    rw [List.foldl_cons, ih, addEntry_eval, sumPre_cons]
    omega

theorem buildSizes_eval (E : List Entry) (p : List String) :
    buildSizes E p = sumPre E p := by
  have h := buildSizes_aux E (fun _ => 0) p
  simpa [buildSizes] using h

/-! ### Sum bookkeeping -/

theorem sum_map_add {α : Type} (l : List α) (f g : α → Nat) :
    (l.map (fun x => f x + g x)).sum = (l.map f).sum + (l.map g).sum := by
  induction l with
  | nil => rfl
  | cons x xs ih =>
    simp only [List.map_cons, List.sum_cons, ih]
    omega

theorem sum_swap {α β : Type} (L : List α) (M : List β) (f : α → β → Nat) :
    (L.map (fun c => (M.map (f c)).sum)).sum
      = (M.map (fun e => (L.map (fun c => f c e)).sum)).sum := by
  induction L with
  | nil => simp
  | cons c L ih =>
    simp only [List.map_cons, List.sum_cons, ih]
    rw [sum_map_add M (fun e => f c e) fun e => (List.map (fun c => f c e) L).sum]

theorem sum_if_single {E : List Entry} (hN : (E.map Entry.path).Nodup)
    {c : Entry} (hc : c ∈ E) (v : Nat) :
    (E.map (fun e => if e.path = c.path then v else 0)).sum = v := by
  induction E with
  | nil => cases hc
  | cons d E ih =>
    simp only [List.map_cons, List.sum_cons]
    rcases List.mem_cons.1 hc with rfl | hcE
    · simp only [if_pos rfl]
      have hnot : ∀ e ∈ E, e.path ≠ c.path := by
        intro e he heq
        exact (List.nodup_cons.1 hN).1 (heq ▸ List.mem_map_of_mem Entry.path he)
      have hz : (E.map (fun e => if e.path = c.path then v else 0)).sum = 0 := by
        refine List.sum_eq_zero ?_
        intro x hx
        rcases List.mem_map.1 hx with ⟨e, he, rfl⟩
        simp [hnot e he]
      rw [hz]
      simp
    · have hd : d.path ≠ c.path := by
        intro heq
        exact (List.nodup_cons.1 hN).1 (heq ▸ List.mem_map_of_mem Entry.path hcE)
      rw [if_neg hd, ih (List.nodup_cons.1 hN).2 hcE]
      simp

theorem le_maxPathLen {E : List Entry} {e : Entry} (he : e ∈ E) :
    e.path.length ≤ maxPathLen E := by
  induction E with
  | nil => cases he
  | cons d E ih =>
    simp only [maxPathLen, List.map_cons, List.foldr_cons]
    rcases List.mem_cons.1 he with rfl | heE
    · exact le_max_left _ _
    · exact le_trans (ih heE) (le_max_right _ _)

/-! ### Parent-equality grouping: each entry strictly below `p` lies below
exactly one child position of `p`. -/

theorem parentP_take {p q : List String} (hpre : preB p q = true) (hne : p ≠ q) :
    parentP (q.take (p.length + 1)) = some p := by
  have hlt := preB_length_lt hpre hne
  apply parentP_eq_some.2
  refine ⟨?_, ?_⟩
  · intro he
    have h2 := congrArg List.length he
    simp only [List.length_take, List.length_nil] at h2
    omega
  · have hl : (q.take (p.length + 1)).length = p.length + 1 := by
      rw [List.length_take]; omega
    rw [List.dropLast_eq_take, hl, List.take_take]
    have hm : (p.length + 1 - 1) ⊓ (p.length + 1) = p.length := by
      simp [Nat.min_def]
    rw [hm]
    exact take_of_preB hpre

theorem preB_child_unique {p cp e : List String} (hc : parentP cp = some p)
    (hce : preB cp e = true) : cp = e.take (p.length + 1) := by
  have hl := length_of_parentP hc
  have h2 := take_of_preB hce
  rw [hl] at h2
  exact h2.symm

theorem entry_unique {S : List Entry} (hN : (S.map Entry.path).Nodup)
    {e c : Entry} (he : e ∈ S) (hc : c ∈ S) (hp : e.path = c.path) : e = c :=
  List.inj_on_of_nodup_map hN he hc hp

/-- The partition identity: under the walk's guarantees, the aggregated
total at a directory path `p` is the sum of the aggregated totals at the
entries whose parent is `p`. -/
theorem sumPre_partition (E : List Entry) (p : List String)
    (hN : (E.map Entry.path).Nodup)
    (hzero : ∀ e ∈ E, e.path = p → e.size = 0)
    (hanc : ∀ e ∈ E, preB p e.path = true → e.path ≠ p →
      ∃ d ∈ E, d.path = e.path.take (p.length + 1)) :
    sumPre E p
      = ((E.filter (fun e => parentP e.path == some p)).map
          (fun c => sumPre E c.path)).sum := by
  set C := E.filter (fun e => parentP e.path == some p) with hC
  have hrhs : (C.map (fun c => sumPre E c.path)).sum
      = (E.map (fun e =>
          (C.map (fun c => if preB c.path e.path = true then e.size else 0)).sum)).sum := by
    have h := sum_swap C E (fun c e => if preB c.path e.path = true then e.size else 0)
    simpa [sumPre] using h
  rw [hrhs]
  unfold sumPre
  congr 1
  apply List.map_congr_left
  intro e he
  have memC : ∀ c ∈ C, parentP c.path = some p := by
    intro c hcC
    have h2 := (List.mem_filter.1 hcC).2
    simpa using h2
  by_cases hp : preB p e.path = true
  · by_cases hep : e.path = p
    · rw [if_pos hp, hzero e he hep]
      refine (List.sum_eq_zero ?_).symm
      intro x hx
      rcases List.mem_map.1 hx with ⟨c, hcC, rfl⟩
      have hcp := memC c hcC
      by_cases hcb : preB c.path e.path = true
      · exfalso
        have hl1 := length_of_parentP hcp
        have hl2 := preB_length hcb
        rw [hep] at hl2
        omega
      · simp [hcb]
    · rw [if_pos hp]
      obtain ⟨d, hdE, hdp⟩ := hanc e he hp hep
      have hdparent : parentP d.path = some p := by
        rw [hdp]; exact parentP_take hp (Ne.symm hep)
      have hdC : d ∈ C := List.mem_filter.2 ⟨hdE, by simp [hdparent]⟩
      have hmc : (C.map (fun c => if preB c.path e.path = true then e.size else 0))
          = (C.map (fun c => if c.path = d.path then e.size else 0)) := by
        apply List.map_congr_left
        intro c hcC
        have hcp := memC c hcC
        by_cases hcb : preB c.path e.path = true
        · have h1 : c.path = e.path.take (p.length + 1) := preB_child_unique hcp hcb
          rw [if_pos hcb, if_pos (h1.trans hdp.symm)]
        · rw [if_neg hcb, if_neg ?_]
          intro hcd
          apply hcb
          rw [hcd, hdp]
          exact preB_take _ _
      rw [hmc]
      have hNC : (C.map Entry.path).Nodup := by
        have hsub : (C.map Entry.path).Sublist (E.map Entry.path) :=
          (List.filter_sublist E).map Entry.path
        exact hN.sublist hsub
      exact (sum_if_single hNC hdC e.size).symm
  · rw [if_neg hp]
    refine (List.sum_eq_zero ?_).symm
    intro x hx
    rcases List.mem_map.1 hx with ⟨c, hcC, rfl⟩
    have hcp := memC c hcC
    by_cases hcb : preB c.path e.path = true
    · exact absurd (preB_trans (preB_of_parentP hcp) hcb) hp
    · simp [hcb]

theorem take_of_take_succ {p e : List String} (hpe : preB p e = true) :
    (e.take (p.length + 1)).take p.length = p := by
  rw [List.take_take]
  have hm : p.length ⊓ (p.length + 1) = p.length := inf_eq_left.2 (by omega)
  rw [hm]
  exact take_of_preB hpe

theorem take_succ_ne {p : Nat} {e : List String} (h2 : p + 1 < e.length) :
    e.take (p + 1) ≠ e := by
  intro heq
  have h3 := congrArg List.length heq
  rw [List.length_take] at h3
  have h4 : (p + 1) ⊓ e.length = p + 1 := inf_eq_left.2 (by omega)
  omega

/-- The backbone of the construction invariant: assuming the walk's
guarantees (stated over the sorted list `S`, a permutation of the raw
entry list `E`), `build_node` at any directory or recorded-file position
returns a subtree satisfying the §3 invariant, with the aggregated size. -/
theorem buildNode_ok {r : List String} {S E : List Entry} (hperm : S.Perm E)
    (hN : (S.map Entry.path).Nodup)
    (hdir0 : ∀ e ∈ S, e.is_dir = true → e.size = 0)
    (hanc : ∀ e ∈ S, ∀ a ∈ parentChain e.path, preB r a = true →
        ∃ d ∈ S, d.path = a ∧ d.is_dir = true)
    (sizes : SMap) (hsz : ∀ q, sizes q = sumPre S q) :
    ∀ (fuel : Nat) (p : List String) (isDir : Bool), preB r p = true →
      maxPathLen S < fuel + p.length →
      ((isDir = true ∧ ∀ e ∈ S, e.path = p → e.size = 0)
       ∨ (isDir = false ∧ ∃ c ∈ S, c.path = p ∧ c.is_dir = false)) →
      TreeInv E (build_node S sizes fuel p isDir)
      ∧ (build_node S sizes fuel p isDir).size = sumPre S p
      ∧ (build_node S sizes fuel p isDir).path = p := by
  intro fuel
  induction fuel with
  | zero =>
    intro p isDir hrp hfuel hdisj
    have hnopre : ∀ e ∈ S, ¬ (preB p e.path = true) := by
      intro e he hp
      have h1 := preB_length hp
      have h2 := le_maxPathLen he
      omega
    have hsum : sumPre S p = 0 := by
      unfold sumPre
      refine List.sum_eq_zero ?_
      intro x hx
      rcases List.mem_map.1 hx with ⟨e, he, rfl⟩
      simp [hnopre e he]
    refine ⟨?_, ?_, rfl⟩
    · refine TreeInv.mk ?_ ?_ ?_
      · intro _
        simp [hsz p, hsum]
      · intro _ e heE hep
        exfalso
        have heS : e ∈ S := hperm.mem_iff.2 heE
        exact hnopre e heS (by rw [hep]; exact preB_refl p)
      · intro c hc; cases hc
    · show sizes p = sumPre S p
      exact hsz p
  | succ fuel ih =>
    intro p isDir hrp hfuel hdisj
    set C := S.filter (fun e => parentP e.path == some p) with hCdef
    have memC : ∀ c ∈ C, c ∈ S ∧ parentP c.path = some p := by
      intro c hc
      have h1 := List.mem_filter.1 hc
      exact ⟨h1.1, by simpa using h1.2⟩
    have hchild : ∀ c ∈ C,
        TreeInv E (build_node S sizes fuel c.path c.is_dir)
        ∧ (build_node S sizes fuel c.path c.is_dir).size = sumPre S c.path
        ∧ (build_node S sizes fuel c.path c.is_dir).path = c.path := by
      intro c hc
      obtain ⟨hcS, hcp⟩ := memC c hc
      have hlen := length_of_parentP hcp
      have hpre_pc := preB_of_parentP hcp
      refine ih c.path c.is_dir (preB_trans hrp hpre_pc) (by omega) ?_
      cases hcd : c.is_dir with
      | true =>
        refine Or.inl ⟨rfl, ?_⟩
        intro e heS hep
        rw [entry_unique hN heS hcS hep]
        exact hdir0 c hcS hcd
      | false =>
        exact Or.inr ⟨rfl, ⟨c, hcS, rfl, hcd⟩⟩
    have hbn : build_node S sizes (fuel + 1) p isDir
        = Node.mk p (sizes p) isDir
            (C.map (fun e => build_node S sizes fuel e.path e.is_dir)) := rfl
    rw [hbn]
    have hsizes : ((C.map (fun e => build_node S sizes fuel e.path e.is_dir)).map
          Node.size) = C.map (fun c => sumPre S c.path) := by
      rw [List.map_map]
      apply List.map_congr_left
      intro c hc
      exact (hchild c hc).2.1
    refine ⟨?_, ?_, rfl⟩
    · refine TreeInv.mk ?_ ?_ ?_
      · intro hd
        rcases hdisj with ⟨_, hzero⟩ | ⟨hfalse, _⟩
        · rw [hsizes, hsz p, hCdef]
          refine sumPre_partition S p hN hzero ?_
          intro e heS hpe hep
          by_cases hlen : e.path.length = p.length + 1
          · refine ⟨e, heS, ?_⟩
            rw [← hlen, List.take_length]
          · have hplt := preB_length_lt hpe (Ne.symm hep)
            have h2 : p.length + 1 < e.path.length := by omega
            have hmem : e.path.take (p.length + 1) ∈ parentChain e.path :=
              mem_parentChain.2 ⟨preB_take _ _, take_succ_ne h2⟩
            have hra : preB r (e.path.take (p.length + 1)) = true :=
              preB_trans hrp (preB_of_take_eq (take_of_take_succ hpe))
            obtain ⟨d, hdS, hdp, _⟩ := hanc e heS _ hmem hra
            exact ⟨d, hdS, hdp⟩
        · rw [hfalse] at hd; cases hd
      · intro hd
        rcases hdisj with ⟨htrue, _⟩ | ⟨_, c0, hc0S, hc0p, hc0d⟩
        · rw [htrue] at hd; cases hd
        · have hnosub : ∀ e ∈ S, preB p e.path = true → e.path = p := by
            intro e heS hpe
            by_contra hep
            have hmem : p ∈ parentChain e.path :=
              mem_parentChain.2 ⟨hpe, Ne.symm hep⟩
            obtain ⟨d, hdS, hdp, hdd⟩ := hanc e heS p hmem hrp
            have hd0 : d = c0 := entry_unique hN hdS hc0S (hdp.trans hc0p.symm)
            rw [hd0, hc0d] at hdd
            cases hdd
          have hsump : sumPre S p = c0.size := by
            unfold sumPre
            have hcong : S.map (fun e => if preB p e.path then e.size else 0)
                = S.map (fun e => if e.path = c0.path then c0.size else 0) := by
              apply List.map_congr_left
              intro e heS
              by_cases hpe : preB p e.path = true
              · have hep := hnosub e heS hpe
                have he0 : e = c0 :=
                  entry_unique hN heS hc0S (hep.trans hc0p.symm)
                subst he0
                rw [if_pos hpe, if_pos rfl]
              · rw [if_neg hpe, if_neg ?_]
                intro hec
                apply hpe
                rw [hec, hc0p]
                exact preB_refl p
            rw [hcong]
            exact sum_if_single hN hc0S c0.size
          intro e heE hep
          have heS := hperm.mem_iff.2 heE
          have he0 : e = c0 := entry_unique hN heS hc0S (hep.trans hc0p.symm)
          rw [hsz p, hsump, he0]
      · intro cn hcn
        rcases List.mem_map.1 hcn with ⟨c, hcC, rfl⟩
        exact (hchild c hcC).1
    · show sizes p = sumPre S p
      exact hsz p

/-! ### Stable sort: permutation, sortedness, idempotence, stability -/

theorem insertOrd_perm {α : Type} (le : α → α → Bool) (x : α) :
    ∀ (l : List α), (insertOrd le x l).Perm (x :: l) := by
  intro l
  induction l with
  | nil => exact List.Perm.refl _
  | cons y ys ih =>
    unfold insertOrd
    by_cases h : le x y = true
    · rw [if_pos h]
    · rw [if_neg h]
      exact (ih.cons y).trans (List.Perm.swap x y ys)

theorem insSort_perm {α : Type} (le : α → α → Bool) :
    ∀ (l : List α), (insSort le l).Perm l := by
  intro l
  induction l with
  | nil => exact List.Perm.refl _
  | cons x xs ih =>
    exact (insertOrd_perm le x (insSort le xs)).trans (ih.cons x)

theorem mem_insertOrd {α : Type} {le : α → α → Bool} {x z : α} {l : List α}
    (h : z ∈ insertOrd le x l) : z = x ∨ z ∈ l := by
  have h2 := (insertOrd_perm le x l).mem_iff.1 h
  simpa using h2

theorem insertOrd_sorted {α : Type} {le : α → α → Bool}
    (htot : ∀ a b, le a b = true ∨ le b a = true)
    (htrans : ∀ a b c, le a b = true → le b c = true → le a c = true)
    (x : α) :
    ∀ {l : List α}, l.Pairwise (fun a b => le a b = true) →
      (insertOrd le x l).Pairwise (fun a b => le a b = true) := by
  intro l
  induction l with
  | nil =>
    intro _
    simp [insertOrd]
  | cons y ys ih =>
    intro hp
    rcases List.pairwise_cons.1 hp with ⟨hy, hys⟩
    unfold insertOrd
    by_cases h : le x y = true
    · rw [if_pos h]
      refine List.pairwise_cons.2 ⟨?_, hp⟩
      intro z hz
      rcases List.mem_cons.1 hz with rfl | hzys
      · exact h
      · exact htrans x y z h (hy z hzys)
    · rw [if_neg h]
      refine List.pairwise_cons.2 ⟨?_, ih hys⟩
      intro z hz
      rcases mem_insertOrd hz with rfl | hzys
      · rcases htot z y with h' | h'
        · exact absurd h' h
        · exact h'
      · exact hy z hzys

theorem insSort_sorted {α : Type} {le : α → α → Bool}
    (htot : ∀ a b, le a b = true ∨ le b a = true)
    (htrans : ∀ a b c, le a b = true → le b c = true → le a c = true)
    (l : List α) :
    (insSort le l).Pairwise (fun a b => le a b = true) := by
  induction l with
  | nil => simp [insSort]
  | cons x xs ih => exact insertOrd_sorted htot htrans x ih

theorem insSort_of_sorted {α : Type} {le : α → α → Bool} :
    ∀ {l : List α}, l.Pairwise (fun a b => le a b = true) → insSort le l = l := by
  intro l
  induction l with
  | nil => intro _; rfl
  | cons x xs ih =>
    intro hp
    rcases List.pairwise_cons.1 hp with ⟨hx, hxs⟩
    show insertOrd le x (insSort le xs) = x :: xs
    rw [ih hxs]
    cases xs with
    | nil => rfl
    | cons y ys =>
      unfold insertOrd
      rw [if_pos (hx y (List.mem_cons_self y ys))]

theorem insertOrd_filter_neg {α : Type} {le : α → α → Bool} {p : α → Bool}
    {x : α} (hx : p x = false) :
    ∀ (l : List α), (insertOrd le x l).filter p = l.filter p := by
  intro l
  induction l with
  | nil => simp [insertOrd, hx]
  | cons y ys ih =>
    unfold insertOrd
    by_cases h : le x y = true
    · rw [if_pos h]
      simp [List.filter_cons, hx]
    · rw [if_neg h]
      simp [List.filter_cons, ih]

theorem insertOrd_filter_pos {α : Type} {le : α → α → Bool} {p : α → Bool}
    {x : α} (hx : p x = true) :
    ∀ (l : List α), (∀ y ∈ l, p y = true → le x y = true) →
      (insertOrd le x l).filter p = x :: l.filter p := by
  intro l
  induction l with
  | nil => intro _; simp [insertOrd, hx]
  | cons y ys ih =>
    intro hp
    unfold insertOrd
    by_cases h : le x y = true
    · rw [if_pos h]
      simp [List.filter_cons, hx]
    · rw [if_neg h]
      have hpy : p y = false := by
        cases hyv : p y
        · rfl
        · exact absurd (hp y (List.mem_cons_self y ys) hyv) h
      have hrest := ih (fun z hz hpz => hp z (List.mem_cons_of_mem y hz) hpz)
      simp [List.filter_cons, hpy, hrest]

theorem insSort_filter {α : Type} {le : α → α → Bool} {p : α → Bool}
    (hcl : ∀ a b, p a = true → p b = true → le a b = true) :
    ∀ (l : List α), (insSort le l).filter p = l.filter p := by
  intro l
  induction l with
  | nil => rfl
  | cons x xs ih =>
    show (insertOrd le x (insSort le xs)).filter p = _
    cases hx : p x
    · rw [insertOrd_filter_neg hx]
      simp [List.filter_cons, hx, ih]
    · have hp : ∀ y ∈ insSort le xs, p y = true → le x y = true :=
        fun y _ hpy => hcl x y hx hpy
      rw [insertOrd_filter_pos hx _ hp]
      simp [List.filter_cons, hx, ih]

/-! ### The two comparators are total preorders -/

theorem charsLt_asymm : ∀ {a b : List Char},
    charsLt a b = true → charsLt b a = true → False := by
  intro a
  induction a with
  | nil =>
    intro b hab hba
    cases b with
    | nil => simp [charsLt] at hab
    | cons z zs => simp [charsLt] at hba
  | cons x xs ih =>
    intro b hab hba
    cases b with
    | nil => simp [charsLt] at hab
    | cons y ys =>
      simp only [charsLt, Bool.or_eq_true, Bool.and_eq_true, decide_eq_true_eq,
        beq_iff_eq] at hab hba
      rcases hab with h1 | ⟨h1, h2⟩
      · rcases hba with h3 | ⟨h3, h4⟩
        · exact lt_asymm h1 h3
        · rw [h3] at h1; exact lt_irrefl x h1
      · rcases hba with h3 | ⟨h3, h4⟩
        · rw [h1] at h3; exact lt_irrefl y h3
        · exact ih h2 h4

theorem charsLt_trans : ∀ {a b c : List Char},
    charsLt a b = true → charsLt b c = true → charsLt a c = true := by
  intro a
  induction a with
  | nil =>
    intro b c hab hbc
    cases c with
    | nil =>
      cases b with
      | nil => simp [charsLt] at hab
      | cons y ys => simp [charsLt] at hbc
    | cons z zs => rfl
  | cons x xs ih =>
    intro b c hab hbc
    cases b with
    | nil => simp [charsLt] at hab
    | cons y ys =>
      cases c with
      | nil => simp [charsLt] at hbc
      | cons z zs =>
        simp only [charsLt, Bool.or_eq_true, Bool.and_eq_true, decide_eq_true_eq,
          beq_iff_eq] at hab hbc ⊢
        rcases hab with h1 | ⟨h1, h2⟩
        · rcases hbc with h3 | ⟨h3, h4⟩
          · exact Or.inl (lt_trans h1 h3)
          · exact Or.inl (by rw [← h3]; exact h1)
        · rcases hbc with h3 | ⟨h3, h4⟩
          · exact Or.inl (by rw [h1]; exact h3)
          · exact Or.inr ⟨h1.trans h3, ih h2 h4⟩

theorem charsLt_connex : ∀ {a b : List Char},
    charsLt a b = false → charsLt b a = false → a = b := by
  intro a
  induction a with
  | nil =>
    intro b hab _
    cases b with
    | nil => rfl
    | cons z zs => simp [charsLt] at hab
  | cons x xs ih =>
    intro b hab hba
    cases b with
    | nil => simp [charsLt] at hba
    | cons y ys =>
      simp only [charsLt, Bool.or_eq_false_iff, Bool.and_eq_false_iff,
        decide_eq_false_iff_not, beq_iff_eq, beq_eq_false_iff_ne, ne_eq] at hab hba
      have hxy : x = y := by
        rcases lt_trichotomy x y with h | h | h
        · exact absurd h hab.1
        · exact h
        · exact absurd h hba.1
      subst hxy
      rcases hab.2 with h | h
      · exact absurd rfl h
      · rcases hba.2 with h' | h'
        · exact absurd rfl h'
        · rw [ih h h']

theorem strLeB_iff {s t : String} :
    strLeB s t = true ↔ charsLt t.data s.data = false := by
  unfold strLeB
  cases charsLt t.data s.data <;> simp

theorem strLeB_total (s t : String) : strLeB s t = true ∨ strLeB t s = true := by
  rw [strLeB_iff, strLeB_iff]
  cases h1 : charsLt t.data s.data
  · exact Or.inl rfl
  · cases h2 : charsLt s.data t.data
    · exact Or.inr rfl
    · exact absurd (charsLt_asymm h1 h2) (fun h => h)

theorem strLeB_trans {s t u : String} (h1 : strLeB s t = true)
    (h2 : strLeB t u = true) : strLeB s u = true := by
  rw [strLeB_iff] at h1 h2 ⊢
  cases hus : charsLt u.data s.data
  · rfl
  · exfalso
    cases hst : charsLt s.data t.data
    · have hts : t.data = s.data := charsLt_connex h1 hst
      rw [hts] at h2
      rw [h2] at hus
      cases hus
    · have h3 := charsLt_trans hus hst
      rw [h2] at h3
      cases h3

theorem optLeB_total (a b : Option String) :
    optLeB a b = true ∨ optLeB b a = true := by
  cases a with
  | none => exact Or.inl rfl
  | some s =>
    cases b with
    | none => exact Or.inr rfl
    | some t => exact strLeB_total s t

theorem optLeB_trans {a b c : Option String} (h1 : optLeB a b = true)
    (h2 : optLeB b c = true) : optLeB a c = true := by
  cases a with
  | none => rfl
  | some s =>
    cases b with
    | none => simp [optLeB] at h1
    | some t =>
      cases c with
      | none => simp [optLeB] at h2
      | some u => exact strLeB_trans h1 h2

theorem sortLe_total (sb : SortBy) (a b : Node) :
    sortLe sb a b = true ∨ sortLe sb b a = true := by
  cases sb with
  | Name => exact optLeB_total _ _
  | Size =>
    simp only [sortLe, decide_eq_true_eq]
    omega

theorem sortLe_trans (sb : SortBy) (a b c : Node) :
    sortLe sb a b = true → sortLe sb b c = true → sortLe sb a c = true := by
  cases sb with
  | Name => exact optLeB_trans
  | Size =>
    simp only [sortLe, decide_eq_true_eq]
    omega

theorem sortChildren_perm (sb : SortBy) (l : List Node) :
    (sortChildren sb l).Perm l :=
  insSort_perm (sortLe sb) l

theorem sortChildren_sorted (sb : SortBy) (l : List Node) :
    (sortChildren sb l).Pairwise (fun a b => sortLe sb a b = true) :=
  insSort_sorted (sortLe_total sb) (sortLe_trans sb) l

theorem sortChildren_idem (sb : SortBy) (l : List Node) :
    sortChildren sb (sortChildren sb l) = sortChildren sb l :=
  insSort_of_sorted (sortChildren_sorted sb l)

theorem sortChildren_size_stable (v : Nat) (l : List Node) :
    (sortChildren .Size l).filter (fun c => c.size == v)
      = l.filter (fun c => c.size == v) := by
  refine insSort_filter ?_ l
  intro a b ha hb
  simp only [beq_iff_eq] at ha hb
  simp only [sortLe, decide_eq_true_eq]
  omega

theorem sortChildren_name_stable (nm : Option String) (l : List Node) :
    (sortChildren .Name l).filter (fun c => fileName c.path == nm)
      = l.filter (fun c => fileName c.path == nm) := by
  refine insSort_filter ?_ l
  intro a b ha hb
  simp only [beq_iff_eq] at ha hb
  show optLeB (fileName a.path) (fileName b.path) = true
  rw [ha, hb]
  cases nm with
  | none => rfl
  | some s =>
    show strLeB s s = true
    rw [strLeB_iff]
    cases h : charsLt s.data s.data
    · rfl
    · exact absurd (charsLt_asymm h h) (fun x => x)

/-! ### The tree invariant is preserved by every navigation action -/

theorem TreeInv_children {E : List Entry} {n : Node} (h : TreeInv E n) :
    ∀ c ∈ n.children, TreeInv E c := by
  cases h with
  | mk h1 h2 h3 => exact h3

theorem TreeInv_sortChildren {E : List Entry} {n : Node} (h : TreeInv E n)
    (sb : SortBy) :
    TreeInv E (Node.mk n.path n.size n.is_dir (sortChildren sb n.children)) := by
  cases h with
  | mk h1 h2 h3 =>
    refine TreeInv.mk ?_ ?_ ?_
    · intro hd
      rw [h1 hd]
      exact (((sortChildren_perm sb _).map Node.size).sum_eq).symm
    · exact h2
    · intro c hc
      exact h3 c ((sortChildren_perm sb _).mem_iff.1 hc)

theorem AppInv_toggle {E : List Entry} {a : App} (h : AppInv E a) :
    AppInv E a.toggle_sort := by
  refine ⟨?_, h.2⟩
  exact TreeInv_sortChildren h.1 (flipSort a.sort_by)

theorem AppInv_move {E : List Entry} {a : App} (h : AppInv E a) (d : Int) :
    AppInv E (a.move_selection d) := by
  unfold App.move_selection
  split
  · exact h
  · exact ⟨h.1, h.2⟩

theorem AppInv_into {E : List Entry} {a : App} (h : AppInv E a) :
    AppInv E a.navigate_into := by
  unfold App.navigate_into
  split
  · next c heq =>
    split
    · refine ⟨?_, ?_⟩
      · exact TreeInv_children h.1 c (List.get?_mem heq)
      · intro n hn
        rcases List.mem_append.1 hn with hn | hn
        · exact h.2 n hn
        · rw [List.mem_singleton.1 hn]
          exact TreeInv_children h.1 c (List.get?_mem heq)
    · exact h
  · exact h

theorem AppInv_out {E : List Entry} {a : App} (h : AppInv E a) :
    AppInv E a.navigate_out := by
  unfold App.navigate_out
  dsimp only
  split
  · split
    · next prev heq =>
      have hprev : prev ∈ a.stack := by
        have h1 : prev ∈ a.stack.dropLast := List.mem_of_mem_getLast? heq
        exact List.Sublist.mem h1 (List.dropLast_sublist _)
      exact ⟨h.2 prev hprev,
        fun n hn => h.2 n (List.Sublist.mem hn (List.dropLast_sublist _))⟩
    · exact ⟨h.1, fun n hn => h.2 n (List.Sublist.mem hn (List.dropLast_sublist _))⟩
  · exact h

theorem AppInv_step {E : List Entry} {a : App} (h : AppInv E a) :
    ∀ act : Act, AppInv E (appStep a act) := by
  intro act
  cases act with
  | ToggleSort => exact AppInv_toggle h
  | MoveDown => exact AppInv_move h 1
  | MoveUp => exact AppInv_move h (-1)
  | NavigateIn => exact AppInv_into h
  | NavigateOut => exact AppInv_out h

theorem build_tree_TreeInv (r : List String) (E : List Entry)
    (h : WellFormed r E) :
    TreeInv E (build_tree r E) ∧ (build_tree r E).path = r := by
  obtain ⟨hN, hdir0, hanc, hroot⟩ := h
  have hperm : (insSort (fun e₁ e₂ => pathLe e₁.path e₂.path) E).Perm E :=
    insSort_perm _ E
  have hmain := buildNode_ok (r := r) hperm
    ((hperm.map Entry.path).nodup_iff.2 hN)
    (fun e he hd => hdir0 e (hperm.mem_iff.1 he) hd)
    (fun e he a ha hra => by
      obtain ⟨d, hdE, hdp, hdd⟩ := hanc e (hperm.mem_iff.1 he) a ha hra
      exact ⟨d, hperm.mem_iff.2 hdE, hdp, hdd⟩)
    (buildSizes _) (buildSizes_eval _)
    (maxPathLen (insSort (fun e₁ e₂ => pathLe e₁.path e₂.path) E) + 1) r true
    (preB_refl r) (by omega)
    (Or.inl ⟨rfl, fun e he hep => hdir0 e (hperm.mem_iff.1 he)
        (hroot e (hperm.mem_iff.1 he) hep)⟩)
  exact ⟨hmain.1, hmain.2.2⟩

/-! ### Shared concrete data: the Scenario A tree of §8 -/

/-- Scenario A scan output: root `r` containing `dirA` (with `f1` = 100
and `f2` = 200 bytes) and `fileB` = 50 bytes. -/
def entA : List Entry :=
  [ ⟨["r"], 0, true⟩,
    ⟨["r", "dirA"], 0, true⟩,
    ⟨["r", "dirA", "f1"], 100, false⟩,
    ⟨["r", "dirA", "f2"], 200, false⟩,
    ⟨["r", "fileB"], 50, false⟩ ]

def treeA : Node := build_tree ["r"] entA

/-! ### Claim C1 -/

/-- C1: for every tree returned by `build_tree` from a list of scanned
entries (entry lists carrying the scanner's guarantees, `WellFormed`),
every directory node's aggregate size equals the sum of its children's
aggregate sizes and every file node's aggregate size equals the byte
length recorded for it in the entry list (`TreeInv`); the invariant holds
at construction, for the initial `App` state, and is preserved by every
navigation action — `ToggleSort`, `MoveSelection` with any delta,
`NavigateIn`, `NavigateOut` — which touch only display order and the
transient view state. -/
theorem c1_aggregate_invariant (r : List String) (E : List Entry)
    (h : WellFormed r E) :
    TreeInv E (build_tree r E)
    ∧ AppInv E (App.new (build_tree r E))
    ∧ (∀ (a : App) (act : Act), AppInv E a → AppInv E (appStep a act))
    ∧ (∀ (a : App) (d : Int), AppInv E a → AppInv E (a.move_selection d)) := by
  have hti := (build_tree_TreeInv r E h).1
  refine ⟨hti, ⟨hti, ?_⟩, fun a act ha => AppInv_step ha act,
    fun a d ha => AppInv_move ha d⟩
  intro n hn
  rw [List.mem_singleton.1 hn]
  exact hti

/-- Witness for C1 at the concrete Scenario A entry list. -/
theorem c1_aggregate_invariant_witness :
    WellFormed ["r"] entA ∧ TreeInv entA (build_tree ["r"] entA) :=
  ⟨by decide, (c1_aggregate_invariant ["r"] entA (by decide)).1⟩

/-! ### Exact behavior of each `App` action -/

theorem navigate_into_push {a : App} {c : Node}
    (hget : a.current_node.children.get? a.selected = some c)
    (hd : c.is_dir = true) (hne : c.children ≠ []) :
    a.navigate_into
      = { current_node := c, stack := a.stack ++ [c],
          sort_by := a.sort_by, selected := 0 } := by
  have hcond : (c.is_dir && !c.children.isEmpty) = true := by
    cases hc : c.children with
    | nil => exact absurd hc hne
    | cons x xs => rw [hd]; rfl
  simp only [App.navigate_into, hget, hcond]
  rfl

theorem navigate_into_noop_of_get {a : App} {c : Node}
    (hget : a.current_node.children.get? a.selected = some c)
    (h : c.is_dir = false ∨ c.children = []) :
    a.navigate_into = a := by
  have hcond : (c.is_dir && !c.children.isEmpty) = false := by
    rcases h with h | h
    · rw [h]; rfl
    · rw [h]; simp
  simp only [App.navigate_into, hget, hcond]
  rfl

theorem navigate_into_noop_oob {a : App}
    (h : a.current_node.children.length ≤ a.selected) : a.navigate_into = a := by
  have hget : a.current_node.children.get? a.selected = none :=
    List.get?_eq_none.2 h
  simp only [App.navigate_into, hget]

theorem move_selection_noop {a : App} (d : Int)
    (h : a.current_node.children = []) : a.move_selection d = a := by
  unfold App.move_selection
  rw [h]
  rfl

theorem move_selection_mod {a : App} (d : Int)
    (h : a.current_node.children ≠ []) :
    a.move_selection d = { a with selected :=
      (((a.selected : Int) + d) % (a.current_node.children.length : Int)).toNat } := by
  unfold App.move_selection
  have he : a.current_node.children.isEmpty = false := by
    cases hc : a.current_node.children with
    | nil => exact absurd hc h
    | cons x xs => rfl
  rw [he]
  rfl

theorem navigate_out_noop {a : App} (h : a.stack.length ≤ 1) :
    a.navigate_out = a := by
  unfold App.navigate_out
  rw [if_neg (by omega)]

theorem navigate_out_pop {a : App} {prev : Node}
    (hlen : 1 < a.stack.length)
    (hprev : a.stack.dropLast.getLast? = some prev)
    (hnp : ∀ c ∈ prev.children, c.path ≠ prev.path) :
    a.navigate_out
      = { current_node := prev, stack := a.stack.dropLast,
          sort_by := a.sort_by, selected := a.selected } := by
  have hfind : List.findIdx? (fun c => c.path == prev.path) prev.children = none := by
    rw [List.findIdx?_eq_none_iff]
    intro c hc
    simp [hnp c hc]
  unfold App.navigate_out
  rw [if_pos hlen]
  dsimp only
  rw [hprev]
  dsimp only
  rw [hfind]

/-! ### Concrete states shared by witnesses -/

def dirW : Node := Node.mk ["r", "d"] 300 true [Node.mk ["r", "d", "f"] 300 false []]

def fileW : Node := Node.mk ["r", "w"] 50 false []

def rootW : Node := Node.mk ["r"] 350 true [dirW, fileW]

/-- A state two levels deep (`current` = `dirW`) with a non-zero selection. -/
def appO : App :=
  { current_node := dirW, stack := [rootW, dirW], sort_by := .Size, selected := 1 }

/-! ### Claim C2 -/

/-- C2 counterexample: from a depth-2 state with `selected = 1`,
`navigate_out` pops but leaves the selection at 1 instead of resetting it
to 0 — the restoration search compares children of the new current node
against that node's own path and never matches. -/
theorem c2_counterexample :
    1 < appO.stack.length ∧ (appO.navigate_out).selected = 1
    ∧ (appO.navigate_out).selected ≠ 0
    ∧ (appO.navigate_out).stack.length = 1 := by
  refine ⟨by decide, rfl, by decide, rfl⟩

/-- C2 (amended): `NavigateOut` pops the top of the stack whenever the
stack length is greater than 1 and leaves `selectionIndex` unchanged (the
selection-restoration search looks for a child of the new current node
whose path equals that node's own path, which never matches in a
well-formed tree); it is a strict no-op when the stack length is 1. -/
theorem c2_navigate_out (a : App) :
    (a.stack.length ≤ 1 → a.navigate_out = a)
    ∧ (∀ prev : Node, 1 < a.stack.length →
        a.stack.dropLast.getLast? = some prev →
        (∀ c ∈ prev.children, c.path ≠ prev.path) →
        a.navigate_out
          = { current_node := prev, stack := a.stack.dropLast,
              sort_by := a.sort_by, selected := a.selected }) :=
  ⟨navigate_out_noop, fun _ hlen hprev hnp => navigate_out_pop hlen hprev hnp⟩

/-- Witness for C2's amended statement at concrete states. -/
theorem c2_navigate_out_witness :
    1 < appO.stack.length
    ∧ appO.navigate_out
        = { current_node := rootW, stack := [rootW],
            sort_by := .Size, selected := 1 }
    ∧ (App.new rootW).stack.length ≤ 1
    ∧ (App.new rootW).navigate_out = App.new rootW := by
  have h1 := (c2_navigate_out appO).2 rootW (by decide) rfl (by decide)
  have h2 := (c2_navigate_out (App.new rootW)).1 (by decide)
  exact ⟨by decide, h1, by decide, h2⟩

/-! ### Claim C5 -/

/-- C5: `MoveSelection(delta)` sets `selectionIndex` to
`(selectionIndex + delta) mod n` (Euclidean remainder, wrapping in both
directions for deltas of any magnitude) when the current node has
`n > 0` children, touching nothing else, and is a no-op when `n = 0`. -/
theorem c5_move_selection (a : App) (d : Int) :
    (a.current_node.children.length = 0 → a.move_selection d = a)
    ∧ (0 < a.current_node.children.length →
        (a.move_selection d).selected
          = (((a.selected : Int) + d) % (a.current_node.children.length : Int)).toNat
        ∧ (a.move_selection d).current_node = a.current_node
        ∧ (a.move_selection d).stack = a.stack
        ∧ (a.move_selection d).sort_by = a.sort_by) := by
  constructor
  · intro h0
    exact move_selection_noop d (List.length_eq_zero.1 h0)
  · intro hpos
    have hne : a.current_node.children ≠ [] := by
      intro he; rw [he] at hpos; simp at hpos
    rw [move_selection_mod d hne]
    exact ⟨rfl, rfl, rfl, rfl⟩

/-- A three-child state with the last child selected, the same state with
the first child selected, and a childless state. -/
def appW : App :=
  { current_node := Node.mk ["r"] 300 true
      [Node.mk ["r", "x"] 100 false [], Node.mk ["r", "y"] 100 false [],
        Node.mk ["r", "z"] 100 false []],
    stack := [Node.mk ["r"] 300 true []], sort_by := .Size, selected := 2 }

def appZ : App := { appW with selected := 0 }

def appN : App :=
  { current_node := Node.mk ["r"] 0 true [], stack := [Node.mk ["r"] 0 true []],
    sort_by := .Size, selected := 0 }

/-- Witness for C5: wrap forward from the last index to 0, wrap backward
from 0 to `n - 1`, and the no-op on zero children. -/
theorem c5_move_selection_witness :
    (0 < appW.current_node.children.length
      ∧ (appW.move_selection 1).selected = 0
      ∧ (appZ.move_selection (-1)).selected = 2)
    ∧ (appN.current_node.children.length = 0 ∧ appN.move_selection 7 = appN) := by
  have h1 := ((c5_move_selection appW 1).2 (by decide)).1
  have h2 := ((c5_move_selection appZ (-1)).2 (by decide)).1
  have h3 := (c5_move_selection appN 7).1 rfl
  refine ⟨⟨by decide, ?_, ?_⟩, rfl, h3⟩
  · rw [h1]; decide
  · rw [h2]; decide

/-! ### Claim C6 -/

/-- C6: `NavigateIn` pushes the child at `selectionIndex` and resets the
selection to 0 exactly when that child exists, is a directory, and has a
non-empty child list; on a file, an empty directory, or an out-of-range
selection it leaves the whole state unchanged. -/
theorem c6_navigate_in (a : App) :
    (∀ c, a.current_node.children.get? a.selected = some c →
      ((c.is_dir = true ∧ c.children ≠ []) →
          a.navigate_into
            = { current_node := c, stack := a.stack ++ [c],
                sort_by := a.sort_by, selected := 0 })
      ∧ ((c.is_dir = false ∨ c.children = []) → a.navigate_into = a))
    ∧ (a.current_node.children.get? a.selected = none → a.navigate_into = a) := by
  refine ⟨?_, ?_⟩
  · intro c hc
    exact ⟨fun h => navigate_into_push hc h.1 h.2,
      fun h => navigate_into_noop_of_get hc h⟩
  · intro h
    simp only [App.navigate_into, h]

/-- States at `rootW` with the directory child selected / the file child
selected. -/
def appD : App := App.new rootW

def appF : App :=
  { current_node := rootW, stack := [rootW], sort_by := .Size, selected := 1 }

/-- Witness for C6: entering the selected directory pushes it and resets
the selection; `NavigateIn` on the selected file is a strict no-op. -/
theorem c6_navigate_in_witness :
    (appD.current_node.children.get? appD.selected = some dirW
      ∧ dirW.is_dir = true
      ∧ appD.navigate_into
          = { current_node := dirW, stack := appD.stack ++ [dirW],
              sort_by := appD.sort_by, selected := 0 }
      ∧ (appD.navigate_into).stack.length = appD.stack.length + 1)
    ∧ (appF.current_node.children.get? appF.selected = some fileW
      ∧ fileW.is_dir = false ∧ appF.navigate_into = appF) := by
  have h1 := ((c6_navigate_in appD).1 dirW rfl).1 ⟨rfl, List.cons_ne_nil _ _⟩
  have h2 := ((c6_navigate_in appF).1 fileW rfl).2 (Or.inl rfl)
  exact ⟨⟨rfl, rfl, h1, by rw [h1]; rfl⟩, rfl, rfl, h2⟩

/-! ### Claim C9 -/

/-- C9 counterexample: the `main.rs` event loop initializes its
`TableState` to the default, whose selection is empty — not index 0 — so
`NavigateIn` from the loop's initial state is a no-op. -/
theorem c9_counterexample :
    (mainInit rootW).sel = none ∧ (mainInit rootW).sel ≠ some 0
    ∧ mainStep (mainInit rootW) .NavigateIn = some (mainInit rootW) := by
  refine ⟨rfl, by decide, rfl⟩

/-- C9 (amended): `App::new` initializes exactly as the claim states —
stack `[root]`, selection 0, `Size` order — while the `main.rs` loop
initializes the same stack and sort order but with an empty selection
(no row selected) rather than index 0. -/
theorem c9_initial_state (root : Node) :
    (App.new root).stack = [root] ∧ (App.new root).selected = 0
    ∧ (App.new root).sort_by = .Size ∧ (App.new root).current_node = root
    ∧ (mainInit root).stack = [(root, 0)] ∧ (mainInit root).sel = none
    ∧ (mainInit root).sort_by = .Size :=
  ⟨rfl, rfl, rfl, rfl, rfl, rfl, rfl⟩

/-! ### Claim C4 -/

/-- Equal-size children stored as `[b, a]`: stable under `Size` order. -/
def appT : App :=
  { current_node := Node.mk ["r"] 200 true
      [Node.mk ["r", "b"] 100 false [], Node.mk ["r", "a"] 100 false []],
    stack := [Node.mk ["r"] 200 true []], sort_by := .Size, selected := 0 }

/-- C4 counterexample: `appT`'s children `[b, a]` are a stable (fixed)
ordering for the active `Size` key, yet two `ToggleSort`s leave them as
`[a, b]`: the intermediate `Name` sort reorders the equal-size tie and the
final stable `Size` sort keeps that new order. -/
theorem c4_counterexample :
    sortChildren .Size appT.current_node.children = appT.current_node.children
    ∧ appT.sort_by = .Size
    ∧ (appStep (appStep appT .ToggleSort) .ToggleSort).current_node.children.map
          Node.path
        ≠ appT.current_node.children.map Node.path := by
  refine ⟨rfl, rfl, by decide⟩

/-- C4 (amended): two `ToggleSort`s restore the sort order and leave the
children stably re-sorted by the original key (ties in the other key's
order) — not, in general, in their original relative order, even when the
starting order was stable for the starting key; sorting by the same order
twice produces identical output both times (idempotence). -/
theorem c4_toggle_toggle (a : App) :
    (appStep (appStep a .ToggleSort) .ToggleSort).sort_by = a.sort_by
    ∧ (appStep (appStep a .ToggleSort) .ToggleSort).current_node.children
        = sortChildren a.sort_by
            (sortChildren (flipSort a.sort_by) a.current_node.children)
    ∧ (appStep (appStep a .ToggleSort) .ToggleSort).selected = a.selected
    ∧ (appStep (appStep a .ToggleSort) .ToggleSort).stack = a.stack
    ∧ (∀ (sb : SortBy) (l : List Node),
        sortChildren sb (sortChildren sb l) = sortChildren sb l) := by
  have hff : flipSort (flipSort a.sort_by) = a.sort_by := by
    cases a.sort_by <;> rfl
  refine ⟨?_, ?_, rfl, rfl, sortChildren_idem⟩
  · show flipSort (flipSort a.sort_by) = a.sort_by
    exact hff
  · show sortChildren (flipSort (flipSort a.sort_by))
        (sortChildren (flipSort a.sort_by) a.current_node.children) = _
    rw [hff]

/-! ### Claim C8 -/

/-- C8: `ToggleSort` flips the order and immediately re-sorts the current
node's children in place, touching nothing else; `Size` order is
descending by aggregate size, `Name` order ascending by the last path
component in byte order, both sorts are permutations and are stable with
respect to the prior relative order among equal keys. -/
theorem c8_toggle_sort (a : App) :
    (a.toggle_sort).sort_by = flipSort a.sort_by
    ∧ (a.toggle_sort).current_node
        = Node.mk a.current_node.path a.current_node.size a.current_node.is_dir
            (sortChildren (flipSort a.sort_by) a.current_node.children)
    ∧ (a.toggle_sort).stack = a.stack ∧ (a.toggle_sort).selected = a.selected
    ∧ (∀ l : List Node, (sortChildren .Size l).Pairwise (fun x y => y.size ≤ x.size))
    ∧ (∀ l : List Node, (sortChildren .Name l).Pairwise
        (fun x y => optLeB (fileName x.path) (fileName y.path) = true))
    ∧ (∀ (sb : SortBy) (l : List Node), (sortChildren sb l).Perm l)
    ∧ (∀ (v : Nat) (l : List Node),
        (sortChildren .Size l).filter (fun c => c.size == v)
          = l.filter (fun c => c.size == v))
    ∧ (∀ (nm : Option String) (l : List Node),
        (sortChildren .Name l).filter (fun c => fileName c.path == nm)
          = l.filter (fun c => fileName c.path == nm)) := by
  refine ⟨rfl, rfl, rfl, rfl, ?_, ?_, sortChildren_perm,
    fun v l => sortChildren_size_stable v l,
    fun nm l => sortChildren_name_stable nm l⟩
  · intro l
    have h := sortChildren_sorted .Size l
    refine h.imp ?_
    intro x y hx
    simpa [sortLe] using hx
  · intro l
    exact sortChildren_sorted .Name l

/-! ### Claim C3 -/

/-- A root whose stored (path) order disagrees with the `Size` order. -/
def rootC3 : Node :=
  Node.mk ["r"] 350 true
    [Node.mk ["r", "a"] 50 false [], Node.mk ["r", "b"] 300 false []]

/-- C3 counterexample: the `App`/`ui.rs` presenter draws the stored child
order; at the initial state the active order is `Size` but the stored
order is the construction (path) order, so the smaller child is listed
first. -/
theorem c3_counterexample :
    uiRows (App.new rootC3)
      ≠ (sortChildren (App.new rootC3).sort_by
            (App.new rootC3).current_node.children).map
          (fun c => (fileName c.path, c.size, c.is_dir)) := by
  decide

/-- C3 (amended): the `main.rs` presenter sorts a clone of the current
node's children by the active order on every redraw, and Scenario A holds
there: the root aggregate is 350, the initial view lists
`[dirA(300), fileB(50)]`, and after selecting `dirA` (one `MoveDown`) and
entering it the view lists `[f2(200), f1(100)]`. -/
theorem c3_redraw_sorted :
    (∀ (s : MainState) (n : Node) (k : Nat), s.stack.getLast? = some (n, k) →
      mainRows s = (sortChildren s.sort_by n.children).map
        (fun c => (fileName c.path, c.size, c.is_dir)))
    ∧ treeA.size = 350
    ∧ mainRows (mainInit treeA)
        = [(some "dirA", 300, true), (some "fileB", 50, false)]
    ∧ ((mainStep (mainInit treeA) .MoveDown).bind
          (fun s => mainStep s .NavigateIn)).map mainRows
        = some [(some "f2", 200, false), (some "f1", 100, false)] := by
  refine ⟨?_, rfl, rfl, rfl⟩
  intro s n k h
  unfold mainRows mainTop
  rw [h]
  rfl

/-- Witness for C3's amended statement at a concrete state. -/
theorem c3_redraw_sorted_witness :
    (mainInit rootC3).stack.getLast? = some (rootC3, 0)
    ∧ mainRows (mainInit rootC3)
        = (sortChildren .Size rootC3.children).map
            (fun c => (fileName c.path, c.size, c.is_dir)) := by
  have h := c3_redraw_sorted.1 (mainInit rootC3) rootC3 0 rfl
  exact ⟨rfl, h⟩

/-! ### Claim C10 -/

/-- C10 counterexample: on the one-action sequence `[NavigateIn]` from a
root with an enterable directory child, `App` (selection starts at 0)
enters the child while the `main.rs` loop (selection starts empty) stays
at the root — the two implementations are not observationally
equivalent. -/
theorem c10_counterexample :
    (appStep (App.new rootW) .NavigateIn).current_node.path = ["r", "d"]
    ∧ (mainStep (mainInit rootW) .NavigateIn).map
          (fun s => (mainTop s).map Node.path)
        = some (some ["r"])
    ∧ (["r", "d"] : List String) ≠ ["r"] := by
  exact ⟨rfl, rfl, by decide⟩

/-- C10 (amended): the two navigation implementations agree on the
initial current node and sort order, but not on the view state: `App`
starts with index 0 selected, the event loop starts with no selection
(and `NavigateIn` there requires a prior selection), so equal action
sequences can produce different current nodes. -/
theorem c10_initial_agreement (root : Node) :
    mainTop (mainInit root) = some root
    ∧ (App.new root).current_node = root
    ∧ (mainInit root).sort_by = (App.new root).sort_by
    ∧ (App.new root).selected = 0 ∧ (mainInit root).sel = none :=
  ⟨rfl, rfl, rfl, rfl, rfl⟩

/-! ### Claim C7: totality, and no reachable panic in the main loop -/

/-- The loop's structural invariant: the stack is never empty and any
selected index is in range of the current top's children — exactly what
protects `stack.last().unwrap()` and the `children[sel]` indexing. -/
def MainOk (s : MainState) : Prop :=
  s.stack ≠ [] ∧ ∀ i, s.sel = some i →
    ∃ n k, s.stack.getLast? = some (n, k) ∧ i < n.children.length

theorem mainOk_init (root : Node) : MainOk (mainInit root) := by
  refine ⟨by simp [mainInit], ?_⟩
  intro i h
  simp [mainInit] at h

theorem mainOk_getLast {s : MainState} (h : MainOk s) :
    ∃ pr, s.stack.getLast? = some pr := by
  cases hg : s.stack.getLast? with
  | none => exact absurd (List.getLast?_eq_none_iff.1 hg) h.1
  | some pr => exact ⟨pr, rfl⟩

theorem mainStep_isSome {s : MainState} (h : MainOk s) (act : Act) :
    (mainStep s act).isSome = true := by
  obtain ⟨pr, hpr⟩ := mainOk_getLast h
  obtain ⟨n, k⟩ := pr
  cases act with
  | ToggleSort => rfl
  | MoveDown =>
    unfold mainStep
    rw [hpr]
    dsimp only
    split <;> rfl
  | MoveUp =>
    unfold mainStep
    rw [hpr]
    dsimp only
    split <;> rfl
  | NavigateIn =>
    unfold mainStep
    rw [hpr]
    dsimp only
    cases hs : s.sel with
    | none => rfl
    | some i =>
      dsimp only
      obtain ⟨n', k', hpr', hlt⟩ := h.2 i hs
      rw [hpr] at hpr'
      simp only [Option.some.injEq, Prod.mk.injEq] at hpr'
      rw [← hpr'.1] at hlt
      have hget : n.children.get? i ≠ none := by
        intro hnone
        rw [List.get?_eq_none] at hnone
        omega
      cases hg : n.children.get? i with
      | none => exact absurd hg hget
      | some c =>
        dsimp only
        split <;> rfl
  | NavigateOut =>
    have hout : mainStep s .NavigateOut
        = if 1 < s.stack.length
          then some { stack := s.stack.dropLast, sel := none, sort_by := s.sort_by }
          else some s := rfl
    rw [hout]
    split <;> rfl

theorem mainOk_step {s s' : MainState} (h : MainOk s) {act : Act}
    (hstep : mainStep s act = some s') : MainOk s' := by
  obtain ⟨pr, hpr⟩ := mainOk_getLast h
  obtain ⟨n, k⟩ := pr
  cases act with
  | ToggleSort =>
    unfold mainStep at hstep
    cases hstep
    exact ⟨h.1, fun i hi => h.2 i hi⟩
  | MoveDown =>
    unfold mainStep at hstep
    rw [hpr] at hstep
    dsimp only at hstep
    by_cases hlen : 0 < n.children.length
    · rw [if_pos hlen] at hstep
      cases hstep
      refine ⟨h.1, ?_⟩
      intro i hi
      injection hi with hi2
      refine ⟨n, k, hpr, ?_⟩
      rw [← hi2]
      cases hs : s.sel with
      | none => simpa using hlen
      | some j =>
        dsimp only
        split
        · next hj => omega
        · exact hlen
    · rw [if_neg hlen] at hstep
      cases hstep
      exact ⟨h.1, h.2⟩
  | MoveUp =>
    unfold mainStep at hstep
    rw [hpr] at hstep
    dsimp only at hstep
    by_cases hlen : 0 < n.children.length
    · rw [if_pos hlen] at hstep
      cases hstep
      refine ⟨h.1, ?_⟩
      intro i hi
      injection hi with hi2
      refine ⟨n, k, hpr, ?_⟩
      rw [← hi2]
      cases hs : s.sel with
      | none =>
        dsimp only
        omega
      | some j =>
        obtain ⟨n', k', hpr', hlt⟩ := h.2 j hs
        rw [hpr] at hpr'
        simp only [Option.some.injEq, Prod.mk.injEq] at hpr'
        rw [← hpr'.1] at hlt
        dsimp only
        split
        · omega
        · omega
    · rw [if_neg hlen] at hstep
      cases hstep
      exact ⟨h.1, h.2⟩
  | NavigateIn =>
    unfold mainStep at hstep
    rw [hpr] at hstep
    dsimp only at hstep
    cases hs : s.sel with
    | none =>
      rw [hs] at hstep
      dsimp only at hstep
      cases hstep
      exact h
    | some i =>
      rw [hs] at hstep
      dsimp only at hstep
      obtain ⟨n', k', hpr', hlt⟩ := h.2 i hs
      rw [hpr] at hpr'
      simp only [Option.some.injEq, Prod.mk.injEq] at hpr'
      rw [← hpr'.1] at hlt
      cases hg : n.children.get? i with
      | none =>
        rw [hg] at hstep
        cases hstep
      | some c =>
        rw [hg] at hstep
        dsimp only at hstep
        by_cases hc : (c.is_dir && !c.children.isEmpty) = true
        · rw [if_pos hc] at hstep
          cases hstep
          refine ⟨by simp, ?_⟩
          intro i2 hi2
          exact Option.noConfusion hi2
        · rw [if_neg hc] at hstep
          cases hstep
          exact h
  | NavigateOut =>
    unfold mainStep at hstep
    by_cases hl : 1 < s.stack.length
    · rw [if_pos hl] at hstep
      cases hstep
      refine ⟨?_, ?_⟩
      · intro he
        have h2 := congrArg List.length he
        rw [List.length_dropLast] at h2
        simp only [List.length_nil] at h2
        omega
      · intro i hi
        exact Option.noConfusion hi
    · rw [if_neg hl] at hstep
      cases hstep
      exact h

theorem reachable_mainOk {root : Node} {s : MainState}
    (h : ReachableMain root s) : MainOk s := by
  induction h with
  | init => exact mainOk_init root
  | step hr hs ih => exact mainOk_step ih hs

/-- C7: every navigation action is a total function and invalid requests
degrade to strict no-ops in the `App` implementation — an out-of-range
selection, a file or empty-directory target, an empty child list, a
depth-1 stack — and in the `main.rs` loop every reachable state steps
without panicking (the `unwrap` and `children[sel]` indexing are guarded
by the loop's invariant). -/
theorem c7_actions_total (a : App) (d : Int) (root : Node) (s : MainState) :
    (a.current_node.children.length ≤ a.selected → a.navigate_into = a)
    ∧ (∀ c, a.current_node.children.get? a.selected = some c →
        (c.is_dir = false ∨ c.children = []) → a.navigate_into = a)
    ∧ (a.current_node.children = [] → a.move_selection d = a)
    ∧ (a.stack.length ≤ 1 → a.navigate_out = a)
    ∧ (ReachableMain root s → ∀ act : Act, (mainStep s act).isSome = true) :=
  ⟨navigate_into_noop_oob,
   fun _ hget h => navigate_into_noop_of_get hget h,
   fun h => move_selection_noop d h,
   navigate_out_noop,
   fun hr act => mainStep_isSome (reachable_mainOk hr) act⟩

/-- Witness for C7 at concrete states. -/
theorem c7_actions_total_witness :
    ({ appW with selected := 5 } : App).navigate_into = { appW with selected := 5 }
    ∧ appN.move_selection (-2) = appN
    ∧ appN.navigate_out = appN
    ∧ (mainStep (mainInit rootW) .NavigateOut).isSome = true := by
  have h1 := (c7_actions_total { appW with selected := 5 } (-2) rootW
      (mainInit rootW)).1 (by decide)
  have h2 := (c7_actions_total appN (-2) rootW (mainInit rootW)).2.2.1 rfl
  have h3 := (c7_actions_total appN (-2) rootW (mainInit rootW)).2.2.2.1 (by decide)
  have h4 := (c7_actions_total appN (-2) rootW (mainInit rootW)).2.2.2.2
      ReachableMain.init .NavigateOut
  exact ⟨h1, h2, h3, h4⟩

end Dua
